import Mathlib

/-
Shallow embedding of the rumpus_benchmark analysis scripts.

The scripts operate on pandas data frames whose rows are per-frame candidate
evaluations (frame_*_results.csv) and per-frame ground-truth solutions
(results.csv).  We model rows as Lean structures over exact rationals
(Python float arithmetic modelled exactly; Python's `%` on numbers is
floor-mod, i.e. `x % n = x - n * ⌊x / n⌋`), columns as lists in data-frame
row order, and the pandas operations (groupby-idxmin, transform-min, merge,
np.sort/unique, np.unwrap) as list functions.
-/

set_option maxHeartbeats 1000000

/-- One row of candidate-evaluation data (a frame_*_results.csv row). -/
structure FrameRecord where
  frame_index : ℕ
  car_yaw_deg : ℚ
  car_pitch_deg : ℚ
  car_roll_deg : ℚ
  yaw_offset_deg : ℚ
  weighted_rmse : ℚ
deriving DecidableEq

/-- One ground-truth row (a results.csv row). -/
structure SolutionRecord where
  frame_index : ℕ
  car_yaw_deg : ℚ
  car_pitch_deg : ℚ
  car_roll_deg : ℚ
deriving DecidableEq

/-- Degree wrap as computed by the scripts: `((x + 180) % 360) - 180` with
Python floor-mod (`a % n = a - n * ⌊a / n⌋`). -/
def wrapDeg (x : ℚ) : ℚ :=
  ((x + 180) - 360 * ⌊(x + 180) / 360⌋) - 180

/-- Wrap into the interval (-180, 180] following the spec's words
("wrapDeg(angleDeg) -> deg in (-180, 180]"): the unique representative of
x mod 360 lying in (-180, 180].  Used only to compare the spec's stated
range against the source's computation. -/
def specWrapDeg (x : ℚ) : ℚ :=
  if wrapDeg x = -180 then 180 else wrapDeg x

/-- Candidate yaw column: `wrap(car_yaw_deg + yaw_offset_deg)`
(yaw_error_distribution.py line 18 and the analogous lines elsewhere). -/
def candidateYaw (r : FrameRecord) : ℚ :=
  wrapDeg (r.car_yaw_deg + r.yaw_offset_deg)

/-- Pandas `groupby(...)["weighted_rmse"].idxmin()` restricted to one group:
the first record (in row order) attaining the minimal weighted_rmse, `none`
on an empty group. -/
def idxminFirst : List FrameRecord → Option FrameRecord
  | [] => none
  | r :: rs =>
    match idxminFirst rs with
    | none => some r
    | some b => if b.weighted_rmse < r.weighted_rmse then some b else some r

/-- The distinct frame indices of a table, ascending (pandas groupby keys are
sorted; the scripts additionally `sort_values("frame_index")`). -/
def frameIndices (l : List FrameRecord) : List ℕ :=
  List.insertionSort (· ≤ ·) (l.map (fun r => r.frame_index)).dedup

/-- `df.loc[df.groupby("frame_index")["weighted_rmse"].idxmin()]` followed by
`sort_values("frame_index")`: one best record per distinct frame index. -/
def bestCandidates (l : List FrameRecord) : List FrameRecord :=
  (frameIndices l).filterMap
    (fun fi => idxminFirst (l.filter (fun r => r.frame_index == fi)))

/-- `best_candidates.merge(solution_df, on="frame_index")`: inner join, left
table row order, each matching right row. -/
def mergedPairs (f : List FrameRecord) (sol : List SolutionRecord) :
    List (FrameRecord × SolutionRecord) :=
  (bestCandidates f).flatMap
    (fun r => (sol.filter (fun s => s.frame_index == r.frame_index)).map
      (fun s => (r, s)))

/-- The yaw_error column keyed by frame index:
`wrap(candidate_yaw - car_yaw_deg_solution)`. -/
def yawErrors (f : List FrameRecord) (sol : List SolutionRecord) :
    List (ℕ × ℚ) :=
  (mergedPairs f sol).map
    (fun p => (p.1.frame_index, wrapDeg (candidateYaw p.1 - p.2.car_yaw_deg)))

/-- The abs_yaw_error column (yaw_error_zen_quartiles.py line 40). -/
def absYawErrors (f : List FrameRecord) (sol : List SolutionRecord) :
    List (ℕ × ℚ) :=
  (yawErrors f sol).map (fun e => (e.1, |e.2|))

/-- One step of `np.unwrap`: the wrapped forward difference, with numpy's
boundary rule that a difference congruent to exactly -180 coming from a
positive raw difference becomes +180.  numpy computes
`ddmod = mod(dd + pi, 2*pi) - pi` (the same floor-mod formula as `wrapDeg`,
in radians) and then `ddmod[(ddmod == -pi) & (dd > 0)] = pi`.  We work in
degrees throughout: the scripts convert degrees to radians with
`np.deg2rad`, unwrap with period 2*pi, and convert back, and in exact
arithmetic that scaling commutes with the algorithm. -/
def wrapStep (d : ℚ) : ℚ :=
  if wrapDeg d = -180 ∧ 0 < d then 180 else wrapDeg d

/-- numpy's `ph_correct` entry for one forward difference: zero when the
difference is below the discontinuity threshold (pi, i.e. 180 degrees,
strict comparison), otherwise the amount that replaces the raw difference
by its wrapped counterpart. -/
def phCorrect (d : ℚ) : ℚ :=
  if |d| < 180 then 0 else wrapStep d - d

/-- Tail of `np.unwrap`: each element is shifted by the running cumulative
sum of `ph_correct` values (`prev` is the previous ORIGINAL element, `acc`
the correction accumulated so far). -/
def unwrapAux (prev acc : ℚ) : List ℚ → List ℚ
  | [] => []
  | y :: ys =>
    (y + (acc + phCorrect (y - prev))) :: unwrapAux y (acc + phCorrect (y - prev)) ys

/-- `np.unwrap` (period 360, in degrees): first element unchanged, the rest
corrected by the cumulative wrapped-difference corrections. -/
def unwrapDeg : List ℚ → List ℚ
  | [] => []
  | x :: xs => x :: unwrapAux x 0 xs

/-- `np.sort(series.unique())`: first occurrences, then ascending sort
(error_surface.py line 60). -/
def sortedUnique (l : List ℚ) : List ℚ :=
  List.insertionSort (· ≤ ·) l.dedup

/-- The `yaw_map` dictionary `dict(zip(yaw_sorted, yaw_unwrapped_deg))` as a
lookup (error_surface.py line 65). -/
def unwrapLookup (l : List ℚ) (x : ℚ) : Option ℚ :=
  (((sortedUnique l).zip (unwrapDeg (sortedUnique l))).find?
    (fun p => p.1 == x)).map (fun p => p.2)

/-- `df["candidate_yaw"].map(yaw_map)` applied to a column of wrapped values
(error_surface.py line 66): every value of the column is a key of the map,
so the filterMap keeps one unwrapped value per row. -/
def unwrapColumn (l : List ℚ) : List ℚ :=
  l.filterMap (unwrapLookup l)

/-- The weighted_rmse values of one frame_index group. -/
def groupWrmse (l : List FrameRecord) (fi : ℕ) : List ℚ :=
  (l.filter (fun r => r.frame_index == fi)).map (fun r => r.weighted_rmse)

/-- `df.groupby("frame_index")["weighted_rmse"].transform("min")` for one
group: the minimum weighted_rmse of the group (0 on an empty group, which
never occurs for a group keyed by an existing record). -/
def groupMinWrmse (l : List FrameRecord) (fi : ℕ) : ℚ :=
  match groupWrmse l fi with
  | [] => 0
  | x :: xs => xs.foldl min x

/-- The delta_weighted_rmse column:
`df["weighted_rmse"] - groupby("frame_index")["weighted_rmse"].transform("min")`
(error_surface.py lines 48-50, main.py lines 22-24). -/
def deltaWeightedRmse (l : List FrameRecord) : List ℚ :=
  l.map (fun r => r.weighted_rmse - groupMinWrmse l r.frame_index)

/-- `np.deg2rad` in exact real arithmetic. -/
noncomputable def deg2rad (x : ℝ) : ℝ := x * Real.pi / 180

/-- `np.rad2deg` in exact real arithmetic. -/
noncomputable def rad2deg (x : ℝ) : ℝ := x * 180 / Real.pi

/-- The zenith-angle column
`np.rad2deg(np.arccos(np.cos(pitch) * np.cos(roll)))` with
`pitch = np.deg2rad(car_pitch_deg)` and `roll = np.deg2rad(car_roll_deg)`
(tilt_vs_wrmse.py lines 55-59, yaw_error_zen_quartiles.py lines 17-23,
distribution.py lines 46-50); the source applies `np.arccos` directly to
the cosine product, with no explicit clamping. -/
noncomputable def zenithAngleDeg (pitchDeg rollDeg : ℝ) : ℝ :=
  rad2deg (Real.arccos (Real.cos (deg2rad pitchDeg) * Real.cos (deg2rad rollDeg)))

/-- Modelled from the spec: the error outcomes of PairedComparison (spec
section 4.4); the repository sources contain no implementation of the paired
comparison, only the spec describes it. -/
inductive PCError where
  | LengthMismatch
  | DegenerateInput
deriving DecidableEq

/-- Modelled from the spec: the statistics PairedComparison returns on
success.  The t-statistic, p-value and effect size described by the spec are
computed downstream of the degenerate-variance guard and require square
roots and the t-distribution, so the model returns the mean and the sample
variance of the differences, from which they are derived. -/
structure PairedStats where
  mean_diff : ℚ
  var_diff : ℚ
deriving DecidableEq

/-- Paired differences `a[i] - b[i]`. -/
def pairedDiffs (a b : List ℚ) : List ℚ :=
  List.zipWith (· - ·) a b

/-- Arithmetic mean of a list of rationals. -/
def meanOf (l : List ℚ) : ℚ :=
  l.sum / l.length

/-- Sample variance with the N-1 denominator. -/
def sampleVar (l : List ℚ) : ℚ :=
  ((l.map (fun x => (x - meanOf l) ^ 2)).sum) / ((l.length : ℚ) - 1)

/-- Modelled from the spec: PairedComparison (spec section 4.4).  Fails with
LengthMismatch when the inputs differ in length and with DegenerateInput
when the sample standard deviation of the differences is zero (equivalently,
the sample variance is zero); otherwise returns the paired statistics. -/
def pairedComparison (a b : List ℚ) : Except PCError PairedStats :=
  if a.length ≠ b.length then
    Except.error PCError.LengthMismatch
  else
    let d := pairedDiffs a b
    if sampleVar d = 0 then
      Except.error PCError.DegenerateInput
    else
      Except.ok ⟨meanOf d, sampleVar d⟩

/-- Example table from spec section 8: groups {(1, rmse 0.5), (1, rmse 0.2),
(2, rmse 0.9)}. -/
def exRecords : List FrameRecord :=
  [⟨1, 0, 0, 0, 0, 1/2⟩, ⟨1, 0, 0, 0, 0, 1/5⟩, ⟨2, 0, 0, 0, 0, 9/10⟩]

/-- Candidate table whose single best candidate has wrapped yaw -179. -/
def exF2 : List FrameRecord := [⟨0, -179, 0, 0, 0, 1⟩]

/-- Solution table with yaw 180 for frame 0. -/
def exS2 : List SolutionRecord := [⟨0, 180, 0, 0⟩]

/-- Candidate table whose single best candidate has wrapped yaw 0. -/
def exF0 : List FrameRecord := [⟨0, 0, 0, 0, 0, 1⟩]

/-- Candidate table containing only frame 5. -/
def exF7 : List FrameRecord := [⟨5, 0, 0, 0, 0, 1⟩]

/-- Solution table without a row for frame 5. -/
def exS7 : List SolutionRecord := [⟨0, 10, 0, 0⟩]

/-- The synthetic monotonically-increasing-then-wrapping yaw column from
spec section 8: [170, 175, 180 = -180, -175, -170] (wrapped values lie in
[-180, 180), so 180 is stored as -180). -/
def exSeq : List ℚ := [170, 175, -180, -175, -170]

theorem wrapDeg_eq_fract (x : ℚ) :
    wrapDeg x = 360 * Int.fract ((x + 180) / 360) - 180 := by
  unfold wrapDeg Int.fract
  field_simp

theorem wrapDeg_mem_Ico (x : ℚ) : -180 ≤ wrapDeg x ∧ wrapDeg x < 180 := by
  rw [wrapDeg_eq_fract]
  have h0 : (0:ℚ) ≤ Int.fract ((x + 180) / 360) := Int.fract_nonneg _
  have h1 : Int.fract ((x + 180) / 360) < 1 := Int.fract_lt_one _
  constructor <;> nlinarith

theorem wrapDeg_fixed (x : ℚ) (h0 : -180 ≤ x) (h1 : x < 180) :
    wrapDeg x = x := by
  have hfl : ⌊(x + 180) / 360⌋ = 0 := by
    rw [Int.floor_eq_zero_iff, Set.mem_Ico]
    constructor
    · apply div_nonneg <;> linarith
    · rw [div_lt_one (by norm_num)]
      linarith
  unfold wrapDeg
  rw [hfl]
  push_cast
  ring


theorem wrapDeg_sub_int (x : ℚ) : ∃ k : ℤ, wrapDeg x = x + 360 * k := by
  refine ⟨-⌊(x + 180) / 360⌋, ?_⟩
  unfold wrapDeg
  push_cast
  ring

theorem wrapDeg_add_360_int (y : ℚ) (k : ℤ) :
    wrapDeg (y + 360 * k) = wrapDeg y := by
  unfold wrapDeg
  have h : (y + 360 * k + 180) / 360 = (y + 180) / 360 + k := by
    field_simp
    ring
  rw [h, Int.floor_add_int]
  push_cast
  ring

theorem wrapDeg_eval (x y : ℚ) (k : ℤ) (h : x = y + 360 * k)
    (h0 : -180 ≤ y) (h1 : y < 180) : wrapDeg x = y := by
  rw [h, wrapDeg_add_360_int, wrapDeg_fixed y h0 h1]

theorem idxminFirst_cons (r : FrameRecord) (rs : List FrameRecord) :
    ∃ m, idxminFirst (r :: rs) = some m := by
  simp only [idxminFirst]
  cases idxminFirst rs with
  | none => exact ⟨r, rfl⟩
  | some b =>
    by_cases hb : b.weighted_rmse < r.weighted_rmse
    · exact ⟨b, by simp [hb]⟩
    · exact ⟨r, by simp [hb]⟩

theorem idxminFirst_cons_none {a : FrameRecord} {rs : List FrameRecord}
    (h : idxminFirst rs = none) : idxminFirst (a :: rs) = some a := by
  simp only [idxminFirst, h]

theorem idxminFirst_cons_some {a b : FrameRecord} {rs : List FrameRecord}
    (h : idxminFirst rs = some b) :
    idxminFirst (a :: rs) =
      if b.weighted_rmse < a.weighted_rmse then some b else some a := by
  simp only [idxminFirst, h]

theorem idxminFirst_split (l : List FrameRecord) :
    ∀ r, idxminFirst l = some r →
      ∃ l₁ l₂, l = l₁ ++ r :: l₂ ∧
        (∀ s ∈ l₁, r.weighted_rmse < s.weighted_rmse) ∧
        (∀ s ∈ l₂, r.weighted_rmse ≤ s.weighted_rmse) := by
  induction l with
  | nil => intro r h; simp [idxminFirst] at h
  | cons a rs ih =>
    intro r h
    cases h' : idxminFirst rs with
    | none =>
      rw [idxminFirst_cons_none h'] at h
      obtain rfl : a = r := by injection h
      have hrs : rs = [] := by
        cases rs with
        | nil => rfl
        | cons b bs =>
          obtain ⟨m, hm⟩ := idxminFirst_cons b bs
          rw [hm] at h'
          cases h'
      exact ⟨[], [], by simp [hrs], by simp, by simp [hrs]⟩
    | some b =>
      rw [idxminFirst_cons_some h'] at h
      by_cases hb : b.weighted_rmse < a.weighted_rmse
      · rw [if_pos hb] at h
        obtain rfl : b = r := by injection h
        obtain ⟨l₁, l₂, he, h1, h2⟩ := ih b h'
        refine ⟨a :: l₁, l₂, by simp [he], ?_, h2⟩
        intro s hs
        rcases List.mem_cons.mp hs with rfl | hs
        · exact hb
        · exact h1 s hs
      · rw [if_neg hb] at h
        obtain rfl : a = r := by injection h
        refine ⟨[], rs, rfl, by simp, ?_⟩
        intro s hs
        obtain ⟨l₁, l₂, he, h1, h2⟩ := ih b h'
        have hab : a.weighted_rmse ≤ b.weighted_rmse := le_of_not_lt hb
        rw [he] at hs
        rcases List.mem_append.mp hs with hs | hs
        · exact hab.trans (le_of_lt (h1 s hs))
        · rcases List.mem_cons.mp hs with rfl | hs
          · exact hab
          · exact hab.trans (h2 s hs)

theorem idxminFirst_mem {l : List FrameRecord} {r : FrameRecord}
    (h : idxminFirst l = some r) : r ∈ l := by
  obtain ⟨l₁, l₂, he, _, _⟩ := idxminFirst_split l r h
  rw [he]
  exact List.mem_append.mpr (Or.inr (List.mem_cons_self _ _))

theorem mem_frameIndices {l : List FrameRecord} {fi : ℕ} :
    fi ∈ frameIndices l ↔ ∃ r ∈ l, r.frame_index = fi := by
  unfold frameIndices
  rw [(List.perm_insertionSort _ _).mem_iff, List.mem_dedup, List.mem_map]

theorem nodup_frameIndices (l : List FrameRecord) : (frameIndices l).Nodup :=
  ((List.perm_insertionSort _ _).nodup_iff).mpr (List.nodup_dedup _)

theorem sel_frame_eq {l : List FrameRecord} {fi : ℕ} {r : FrameRecord}
    (h : idxminFirst (l.filter (fun s => s.frame_index == fi)) = some r) :
    r.frame_index = fi := by
  have hm := idxminFirst_mem h
  have := (List.mem_filter.mp hm).2
  simpa using this

theorem sel_eq_some {l : List FrameRecord} {fi : ℕ}
    (h : ∃ r ∈ l, r.frame_index = fi) :
    ∃ m, idxminFirst (l.filter (fun s => s.frame_index == fi)) = some m := by
  obtain ⟨r, hr, hfi⟩ := h
  have hmem : r ∈ l.filter (fun s => s.frame_index == fi) := by
    simp [List.mem_filter, hr, hfi]
  cases hf : l.filter (fun s => s.frame_index == fi) with
  | nil => rw [hf] at hmem; cases hmem
  | cons a as =>
    obtain ⟨m, hm⟩ := idxminFirst_cons a as
    exact ⟨m, hm⟩

theorem filterMap_count_one (f : ℕ → Option FrameRecord)
    (hf : ∀ a r, f a = some r → r.frame_index = a) (L : List ℕ) :
    L.Nodup → ∀ fi, fi ∈ L → (∃ r, f fi = some r) →
      ((L.filterMap f).filter (fun r => r.frame_index == fi)).length = 1 := by
  induction L with
  | nil => intro _ fi h; simp at h
  | cons a L ih =>
    intro hnd fi hmem hex
    obtain ⟨hna, hndL⟩ := List.nodup_cons.mp hnd
    rcases List.mem_cons.mp hmem with rfl | hmemL
    · obtain ⟨r₀, hr₀⟩ := hex
      have hkey : r₀.frame_index = fi := hf _ _ hr₀
      have hrest : (L.filterMap f).filter (fun r => r.frame_index == fi) = [] := by
        rw [List.filter_eq_nil_iff]
        intro r hr
        obtain ⟨b, hbL, hfb⟩ := List.mem_filterMap.mp hr
        have hrb := hf _ _ hfb
        simp only [beq_iff_eq, hrb]
        intro hcontra
        exact hna (hcontra ▸ hbL)
      rw [List.filterMap_cons, hr₀, List.filter_cons]
      simp [hkey, hrest]
    · have hafi : a ≠ fi := fun hc => hna (hc ▸ hmemL)
      cases hfa : f a with
      | none =>
        rw [List.filterMap_cons, hfa]
        exact ih hndL fi hmemL hex
      | some ra =>
        have hra : ra.frame_index = a := hf _ _ hfa
        rw [List.filterMap_cons, hfa, List.filter_cons]
        simp only [hra, beq_iff_eq]
        rw [if_neg (by simpa using hafi)]
        exact ih hndL fi hmemL hex

/-- C1: for a non-empty collection of FrameRecords, the best-candidate
selection returns exactly one record per distinct frame_index; the selected
record belongs to its frame group, every group member strictly before it has
strictly larger weighted_rmse (so on ties the first record in input order
wins), and every member after it has weighted_rmse at least as large (so it
attains the group minimum). -/
theorem bestCandidates_unique_min (l : List FrameRecord) (h : l ≠ []) :
    (∀ fi, (∃ r ∈ l, r.frame_index = fi) →
      ((bestCandidates l).filter (fun r => r.frame_index == fi)).length = 1) ∧
    (∀ r ∈ bestCandidates l, ∃ l₁ l₂,
      l.filter (fun s => s.frame_index == r.frame_index) = l₁ ++ r :: l₂ ∧
      (∀ s ∈ l₁, r.weighted_rmse < s.weighted_rmse) ∧
      (∀ s ∈ l₂, r.weighted_rmse ≤ s.weighted_rmse)) := by
  constructor
  · intro fi hfi
    have hmem : fi ∈ frameIndices l := mem_frameIndices.mpr hfi
    obtain ⟨m, hm⟩ := sel_eq_some hfi
    exact filterMap_count_one _ (fun a r hr => sel_frame_eq hr) _
      (nodup_frameIndices l) fi hmem ⟨m, hm⟩
  · intro r hr
    obtain ⟨fi, hfiL, hsel⟩ := List.mem_filterMap.mp hr
    have hfieq : r.frame_index = fi := sel_frame_eq hsel
    obtain ⟨l₁, l₂, he, h1, h2⟩ := idxminFirst_split _ _ hsel
    rw [hfieq]
    exact ⟨l₁, l₂, he, h1, h2⟩

/-- C1 witness: on the spec's example table the selection keeps exactly one
record for frame 1. -/
theorem bestCandidates_unique_min_instance :
    ((bestCandidates exRecords).filter (fun r => r.frame_index == 1)).length = 1 :=
  (bestCandidates_unique_min exRecords (by simp [exRecords])).1 1
    ⟨⟨1, 0, 0, 0, 0, 1/2⟩, by simp [exRecords], rfl⟩

/-- C3 counterexample: the wrap actually computed maps 180 to -180, which is
different from 180 and outside the claimed interval (-180, 180]. -/
theorem wrapDeg_at_180_cex :
    wrapDeg 180 = -180 ∧ wrapDeg 180 ≠ 180 ∧
      ¬(-180 < wrapDeg 180 ∧ wrapDeg 180 ≤ 180) := by
  have h : wrapDeg 180 = -180 :=
    wrapDeg_eval 180 (-180) 1 (by norm_num) (by norm_num) (by norm_num)
  refine ⟨h, ?_, ?_⟩ <;> rw [h] <;> norm_num

/-- C3 (amended): for every input angle x the wrapping operation
`((x + 180) mod 360) - 180` with floor-mod returns a value in the half-open
BELOW interval [-180, 180); in particular wrap(180) = -180. -/
theorem wrapDeg_range_floor :
    (∀ x : ℚ, -180 ≤ wrapDeg x ∧ wrapDeg x < 180) ∧ wrapDeg 180 = -180 :=
  ⟨wrapDeg_mem_Ico,
    wrapDeg_eval 180 (-180) 1 (by norm_num) (by norm_num) (by norm_num)⟩

/-- C8: the degree-wrapping operation is idempotent: wrap(wrap(x)) = wrap(x)
for every x. -/
theorem wrapDeg_idempotent : ∀ x : ℚ, wrapDeg (wrapDeg x) = wrapDeg x := by
  intro x
  obtain ⟨h0, h1⟩ := wrapDeg_mem_Ico x
  exact wrapDeg_fixed _ h0 h1

/-- C7: inner-join semantics of the merge: for a frame_index with no
matching solution row, the yaw-error table contains no row at all (so in
particular no zero-defaulted error). -/
theorem innerJoin_drops_missing (f : List FrameRecord)
    (sol : List SolutionRecord) (fi : ℕ)
    (h : ∀ s ∈ sol, s.frame_index ≠ fi) :
    (yawErrors f sol).filter (fun e => e.1 == fi) = [] := by
  rw [List.filter_eq_nil_iff]
  intro e he
  obtain ⟨p, hp, rfl⟩ := List.mem_map.mp he
  obtain ⟨r, hr, hpm⟩ := List.mem_flatMap.mp hp
  obtain ⟨s, hsf, rfl⟩ := List.mem_map.mp hpm
  obtain ⟨hs, hbeq⟩ := List.mem_filter.mp hsf
  have hsr : s.frame_index = r.frame_index := by simpa using hbeq
  simp only [beq_iff_eq]
  intro hc
  exact h s hs (by rw [hsr]; exact hc)

/-- C7 witness: with a candidate table containing only frame 5 and a
solution table lacking frame 5, no yaw-error row for frame 5 is produced. -/
theorem innerJoin_drops_missing_instance :
    (yawErrors exF7 exS7).filter (fun e => e.1 == 5) = [] :=
  innerJoin_drops_missing exF7 exS7 5 (by simp [exS7])

/-- C2 counterexample: with a best candidate of wrapped yaw 0 and a solution
yaw of 180 the pipeline's signed error is -180, which lies outside the
claimed interval (-180, 180] and differs from the spec's wrap into
(-180, 180] (which gives 180). -/
theorem yawError_boundary_cex :
    yawErrors exF0 exS2 = [(0, -180)] ∧
    specWrapDeg (candidateYaw ⟨0, 0, 0, 0, 0, 1⟩ - 180) = 180 ∧
    ((-180 : ℚ)) ≠ specWrapDeg (candidateYaw ⟨0, 0, 0, 0, 0, 1⟩ - 180) ∧
    ¬(-180 < (-180 : ℚ) ∧ (-180 : ℚ) ≤ 180) := by
  have h0 : wrapDeg (0 : ℚ) = 0 := wrapDeg_fixed 0 (by norm_num) (by norm_num)
  have hm : wrapDeg (-180 : ℚ) = -180 :=
    wrapDeg_fixed (-180) (by norm_num) (by norm_num)
  refine ⟨?_, ?_, ?_, ?_⟩
  · norm_num [yawErrors, mergedPairs, bestCandidates, frameIndices, exF0, exS2,
      List.insertionSort, List.orderedInsert, List.dedup, List.filterMap_cons,
      List.filter_cons, List.filter_nil, idxminFirst, candidateYaw, h0, hm]
  · norm_num [specWrapDeg, candidateYaw, h0, hm]
  · norm_num [specWrapDeg, candidateYaw, h0, hm]
  · norm_num

/-- C2 (amended): for every frame present in both tables, the signed yaw
error recorded by the pipeline equals wrap(best_candidate_yaw -
solution_yaw) computed with the floor-mod wrap, which lies in the half-open
BELOW interval [-180, 180) (not (-180, 180]) and differs from the raw
difference by an integer multiple of 360, and the absolute error is its
absolute value; in the spec's boundary scenario (best candidate wrapped yaw
-179, solution yaw 180) the signed error is 1 degree, not -359 or 359. -/
theorem yawError_wrap_floor (f : List FrameRecord) (sol : List SolutionRecord) :
    (∀ r ∈ bestCandidates f, ∀ s ∈ sol, s.frame_index = r.frame_index →
      (r.frame_index, wrapDeg (candidateYaw r - s.car_yaw_deg)) ∈ yawErrors f sol ∧
      (r.frame_index, |wrapDeg (candidateYaw r - s.car_yaw_deg)|) ∈ absYawErrors f sol ∧
      -180 ≤ wrapDeg (candidateYaw r - s.car_yaw_deg) ∧
      wrapDeg (candidateYaw r - s.car_yaw_deg) < 180 ∧
      ∃ k : ℤ, wrapDeg (candidateYaw r - s.car_yaw_deg) =
        (candidateYaw r - s.car_yaw_deg) + 360 * k) ∧
    (∀ e ∈ yawErrors f sol, ∃ r s, r ∈ bestCandidates f ∧ s ∈ sol ∧
      s.frame_index = r.frame_index ∧
      e = (r.frame_index, wrapDeg (candidateYaw r - s.car_yaw_deg))) ∧
    wrapDeg ((-179 : ℚ) - 180) = 1 := by
  refine ⟨?_, ?_, ?_⟩
  · intro r hr s hs hsr
    have hsf : s ∈ sol.filter (fun t => t.frame_index == r.frame_index) := by
      simp [List.mem_filter, hs, hsr]
    have hpm : (r, s) ∈ mergedPairs f sol := by
      unfold mergedPairs
      exact List.mem_flatMap.mpr ⟨r, hr, List.mem_map.mpr ⟨s, hsf, rfl⟩⟩
    have hmem : (r.frame_index, wrapDeg (candidateYaw r - s.car_yaw_deg)) ∈
        yawErrors f sol := by
      unfold yawErrors
      exact List.mem_map.mpr ⟨(r, s), hpm, rfl⟩
    refine ⟨hmem, ?_, (wrapDeg_mem_Ico _).1, (wrapDeg_mem_Ico _).2,
      wrapDeg_sub_int _⟩
    unfold absYawErrors
    exact List.mem_map.mpr ⟨_, hmem, rfl⟩
  · intro e he
    unfold yawErrors at he
    obtain ⟨p, hp, rfl⟩ := List.mem_map.mp he
    unfold mergedPairs at hp
    obtain ⟨r, hr, hpm⟩ := List.mem_flatMap.mp hp
    obtain ⟨s, hsf, rfl⟩ := List.mem_map.mp hpm
    obtain ⟨hs, hbeq⟩ := List.mem_filter.mp hsf
    exact ⟨r, s, hr, hs, by simpa using hbeq, rfl⟩
  · exact wrapDeg_eval _ 1 (-1) (by norm_num) (by norm_num) (by norm_num)

/-- C2 witness: the boundary scenario table (best candidate wrapped yaw
-179, solution yaw 180) instantiates the amended claim; the recorded signed
error is wrap(-179 - 180). -/
theorem yawError_wrap_floor_instance :
    ((0 : ℕ), wrapDeg (candidateYaw ⟨0, -179, 0, 0, 0, 1⟩ - 180)) ∈
      yawErrors exF2 exS2 ∧
    ((0 : ℕ), |wrapDeg (candidateYaw ⟨0, -179, 0, 0, 0, 1⟩ - 180)|) ∈
      absYawErrors exF2 exS2 ∧
    -180 ≤ wrapDeg (candidateYaw ⟨0, -179, 0, 0, 0, 1⟩ - 180) ∧
    wrapDeg (candidateYaw ⟨0, -179, 0, 0, 0, 1⟩ - 180) < 180 ∧
    ∃ k : ℤ, wrapDeg (candidateYaw ⟨0, -179, 0, 0, 0, 1⟩ - 180) =
      (candidateYaw ⟨0, -179, 0, 0, 0, 1⟩ - 180) + 360 * k :=
  (yawError_wrap_floor exF2 exS2).1 ⟨0, -179, 0, 0, 0, 1⟩
    (by simp [bestCandidates, frameIndices, exF2, List.insertionSort,
      List.orderedInsert, List.dedup, idxminFirst])
    ⟨0, 180, 0, 0⟩ (by simp [exS2]) rfl

theorem foldl_min_le (xs : List ℚ) :
    ∀ x y : ℚ, y ∈ x :: xs → xs.foldl min x ≤ y := by
  induction xs with
  | nil =>
    intro x y hy
    rcases List.mem_cons.mp hy with rfl | hy
    · exact le_refl _
    · cases hy
  | cons a as ih =>
    intro x y hy
    rw [List.foldl_cons]
    rcases List.mem_cons.mp hy with rfl | hy
    · have h1 : as.foldl min (min y a) ≤ min y a :=
        ih (min y a) (min y a) (List.mem_cons_self _ _)
      exact h1.trans (min_le_left _ _)
    · rcases List.mem_cons.mp hy with rfl | hy
      · have h1 : as.foldl min (min x y) ≤ min x y :=
          ih (min x y) (min x y) (List.mem_cons_self _ _)
        exact h1.trans (min_le_right _ _)
      · exact ih (min x a) y (List.mem_cons.mpr (Or.inr hy))

theorem foldl_min_mem (xs : List ℚ) : ∀ x : ℚ, xs.foldl min x ∈ x :: xs := by
  induction xs with
  | nil => intro x; simp
  | cons a as ih =>
    intro x
    rw [List.foldl_cons]
    rcases List.mem_cons.mp (ih (min x a)) with heq | hmem
    · rcases min_choice x a with h | h
      · rw [heq, h]
        exact List.mem_cons_self _ _
      · rw [heq, h]
        exact List.mem_cons.mpr (Or.inr (List.mem_cons_self _ _))
    · exact List.mem_cons.mpr (Or.inr (List.mem_cons.mpr (Or.inr hmem)))

theorem mem_groupWrmse {l : List FrameRecord} {fi : ℕ} {r : FrameRecord}
    (hr : r ∈ l) (hfi : r.frame_index = fi) :
    r.weighted_rmse ∈ groupWrmse l fi := by
  unfold groupWrmse
  exact List.mem_map.mpr ⟨r, List.mem_filter.mpr ⟨hr, by simp [hfi]⟩, rfl⟩

theorem groupMinWrmse_le {l : List FrameRecord} {fi : ℕ} {r : FrameRecord}
    (hr : r ∈ l) (hfi : r.frame_index = fi) :
    groupMinWrmse l fi ≤ r.weighted_rmse := by
  have hmem := mem_groupWrmse hr hfi
  unfold groupMinWrmse
  cases hg : groupWrmse l fi with
  | nil => rw [hg] at hmem; cases hmem
  | cons x xs =>
    rw [hg] at hmem
    exact foldl_min_le xs x _ hmem

theorem groupMin_attained {l : List FrameRecord} {fi : ℕ}
    (h : ∃ r ∈ l, r.frame_index = fi) :
    ∃ r ∈ l, r.frame_index = fi ∧ r.weighted_rmse = groupMinWrmse l fi := by
  obtain ⟨r0, hr0, hfi0⟩ := h
  have hmem := mem_groupWrmse hr0 hfi0
  cases hg : groupWrmse l fi with
  | nil => rw [hg] at hmem; cases hmem
  | cons x xs =>
    have hmm : xs.foldl min x ∈ x :: xs := foldl_min_mem xs x
    rw [← hg] at hmm
    unfold groupWrmse at hmm
    obtain ⟨r, hrf, hre⟩ := List.mem_map.mp hmm
    obtain ⟨hrl, hbeq⟩ := List.mem_filter.mp hrf
    refine ⟨r, hrl, by simpa using hbeq, ?_⟩
    unfold groupMinWrmse
    rw [hg]
    exact hre

/-- C10: every entry of the delta_weighted_rmse column (weighted_rmse minus
the group minimum of the record's frame_index group) is non-negative, and in
every non-empty frame group at least one record attains delta exactly 0. -/
theorem deltaWrmse_nonneg_min_zero (l : List FrameRecord) :
    (∀ d ∈ deltaWeightedRmse l, 0 ≤ d) ∧
    (∀ fi, (∃ r ∈ l, r.frame_index = fi) →
      ∃ r ∈ l, r.frame_index = fi ∧
        r.weighted_rmse - groupMinWrmse l fi = 0) := by
  constructor
  · intro d hd
    unfold deltaWeightedRmse at hd
    obtain ⟨r, hr, rfl⟩ := List.mem_map.mp hd
    have := groupMinWrmse_le hr rfl
    linarith
  · intro fi hfi
    obtain ⟨r, hr, hfieq, hmin⟩ := groupMin_attained hfi
    exact ⟨r, hr, hfieq, by rw [hmin]; ring⟩

/-- C10 witness: on the spec's example table, some record of frame group 1
attains delta_weighted_rmse zero. -/
theorem deltaWrmse_nonneg_min_zero_instance :
    ∃ r ∈ exRecords, r.frame_index = 1 ∧
      r.weighted_rmse - groupMinWrmse exRecords 1 = 0 :=
  (deltaWrmse_nonneg_min_zero exRecords).2 1
    ⟨⟨1, 0, 0, 0, 0, 1/2⟩, by simp [exRecords], rfl⟩

theorem wrapStep_abs_le (d : ℚ) : |wrapStep d| ≤ 180 := by
  unfold wrapStep
  obtain ⟨h0, h1⟩ := wrapDeg_mem_Ico d
  split
  · norm_num
  · rw [abs_le]
    exact ⟨h0, le_of_lt h1⟩

theorem effStep_abs_le (d : ℚ) : |d + phCorrect d| ≤ 180 := by
  unfold phCorrect
  split
  · next hlt => simpa using le_of_lt hlt
  · next hge =>
    have he : d + (wrapStep d - d) = wrapStep d := by ring
    rw [he]
    exact wrapStep_abs_le d

theorem unwrapAux_chain (xs : List ℚ) :
    ∀ prev acc : ℚ, List.Chain' (fun a b => |b - a| ≤ 180)
      ((prev + acc) :: unwrapAux prev acc xs) := by
  induction xs with
  | nil =>
    intro prev acc
    simp [unwrapAux]
  | cons y ys ih =>
    intro prev acc
    rw [show unwrapAux prev acc (y :: ys) =
      (y + (acc + phCorrect (y - prev))) ::
        unwrapAux y (acc + phCorrect (y - prev)) ys from rfl]
    rw [List.chain'_cons]
    refine ⟨?_, ih y (acc + phCorrect (y - prev))⟩
    rw [show (y + (acc + phCorrect (y - prev))) - (prev + acc) =
      (y - prev) + phCorrect (y - prev) from by ring]
    exact effStep_abs_le _

theorem unwrap_chain (l : List ℚ) :
    List.Chain' (fun a b => |b - a| ≤ 180) (unwrapDeg l) := by
  cases l with
  | nil => simp [unwrapDeg]
  | cons x xs =>
    have h := unwrapAux_chain xs x 0
    rw [add_zero] at h
    simpa [unwrapDeg] using h

/-- C6: for every non-empty input column, after the circular-unwrap step the
absolute difference between the unwrapped counterparts of any two adjacent
values of the ascending sorted-unique input is at most 180 degrees. -/
theorem unwrap_adjacent_le_180 (l : List ℚ) (h : l ≠ []) :
    List.Chain' (fun a b => |b - a| ≤ 180) (unwrapDeg (sortedUnique l)) :=
  unwrap_chain _

/-- C6 witness: the spec's {170, -170} input produces adjacent unwrapped
values at most 180 degrees apart. -/
theorem unwrap_adjacent_le_180_instance :
    List.Chain' (fun a b => |b - a| ≤ 180)
      (unwrapDeg (sortedUnique [(170 : ℚ), -170])) :=
  unwrap_adjacent_le_180 [(170 : ℚ), -170] (by simp)

/-- C5: on the wrapped input column [170, 175, -180, -175, -170] (the
monotonically-increasing-then-wrapping signal, with 180 stored as -180), the
circular-unwrap step maps the column to [-190, -185, -180, -175, -170]: a
strictly increasing sequence equal to [170, 175, 180, 185, 190] shifted by
the common offset -360, so the wrap boundary between the sorted-unique
values -170 and 170 is bridged without reversing the order. -/
theorem unwrapColumn_example :
    unwrapColumn exSeq = [-190, -185, -180, -175, -170] ∧
    List.Chain' (· < ·) (unwrapColumn exSeq) ∧
    (unwrapColumn exSeq).map (fun x => x + 360) = [170, 175, 180, 185, 190] := by
  have h340 : wrapDeg (340 : ℚ) = -20 :=
    wrapDeg_eval 340 (-20) 1 (by norm_num) (by norm_num) (by norm_num)
  have he : unwrapColumn exSeq = [-190, -185, -180, -175, -170] := by
    norm_num [unwrapColumn, unwrapLookup, sortedUnique, exSeq, List.dedup,
      List.insertionSort, List.orderedInsert, unwrapDeg, unwrapAux, phCorrect,
      wrapStep, h340, List.filterMap_cons, List.zip, List.zipWith]
  refine ⟨he, ?_, ?_⟩ <;> rw [he]
  · norm_num [List.chain'_cons]
  · norm_num

/-- C4: in the zenith-angle computation the cosine product
cos(radians(pitch)) * cos(radians(roll)) always lies in [-1, 1], so clamping
it to [-1, 1] leaves it unchanged (equivalently, the arccos domain-error
branch is unreachable) and the resulting zenith angle is a valid angle
in [0, 180] degrees, never undefined. -/
theorem zenithAngleDeg_safe (p r : ℝ) :
    (-1 ≤ Real.cos (deg2rad p) * Real.cos (deg2rad r) ∧
      Real.cos (deg2rad p) * Real.cos (deg2rad r) ≤ 1) ∧
    max (-1) (min 1 (Real.cos (deg2rad p) * Real.cos (deg2rad r))) =
      Real.cos (deg2rad p) * Real.cos (deg2rad r) ∧
    0 ≤ zenithAngleDeg p r ∧ zenithAngleDeg p r ≤ 180 := by
  have habs : |Real.cos (deg2rad p) * Real.cos (deg2rad r)| ≤ 1 := by
    rw [abs_mul]
    exact mul_le_one₀ (Real.abs_cos_le_one _) (abs_nonneg _)
      (Real.abs_cos_le_one _)
  obtain ⟨h1, h2⟩ := abs_le.mp habs
  refine ⟨⟨h1, h2⟩, ?_, ?_, ?_⟩
  · rw [min_eq_right h2, max_eq_right h1]
  · unfold zenithAngleDeg rad2deg
    apply div_nonneg
    · exact mul_nonneg (Real.arccos_nonneg _) (by norm_num)
    · exact le_of_lt Real.pi_pos
  · unfold zenithAngleDeg rad2deg
    rw [div_le_iff₀ Real.pi_pos]
    have := Real.arccos_le_pi (Real.cos (deg2rad p) * Real.cos (deg2rad r))
    linarith

/-- C9: the modelled PairedComparison: on a = [1,1,1], b = [2,2,2] the
paired differences have mean -1 and sample variance 0 and the computation
fails with DegenerateInput rather than returning a value; on inputs of
unequal length it fails with LengthMismatch. -/
theorem pairedComparison_guards :
    pairedComparison [1, 1, 1] [2, 2, 2] = Except.error PCError.DegenerateInput ∧
    meanOf (pairedDiffs [1, 1, 1] [2, 2, 2]) = -1 ∧
    sampleVar (pairedDiffs [1, 1, 1] [2, 2, 2]) = 0 ∧
    ∀ a b : List ℚ, a.length ≠ b.length →
      pairedComparison a b = Except.error PCError.LengthMismatch := by
  have hd : pairedDiffs [(1 : ℚ), 1, 1] [2, 2, 2] = [-1, -1, -1] := by
    norm_num [pairedDiffs]
  have hm : meanOf [(-1 : ℚ), -1, -1] = -1 := by
    norm_num [meanOf]
  have hv : sampleVar [(-1 : ℚ), -1, -1] = 0 := by
    norm_num [sampleVar, meanOf]
  refine ⟨?_, ?_, ?_, ?_⟩
  · norm_num [pairedComparison, hd, hv]
  · rw [hd]
    exact hm
  · rw [hd]
    exact hv
  · intro a b h
    unfold pairedComparison
    rw [if_pos h]

/-- C9 witness: inputs of unequal length fail with LengthMismatch. -/
theorem pairedComparison_guards_instance :
    pairedComparison [(1 : ℚ)] [] = Except.error PCError.LengthMismatch :=
  pairedComparison_guards.2.2.2 [(1 : ℚ)] [] (by norm_num)
